import Mathlib

/-!
Shallow embedding of `src/sparse_matrix.rs` (a dictionary-of-keys sparse
matrix with a compressed-sparse-row cache), together with proofs about it.

Modelling conventions:
* `f64` values are modelled by `ℚ`; the code only stores, retrieves, and
  adds values (one addition per cell in `Add`), so no rounding behaviour is
  observable in the properties below.
* The Rust `HashMap<(u64,u64), f64>` is modelled by an association list
  `List ((ℕ × ℕ) × ℚ)` whose order stands for the (unspecified) iteration
  order of the hash map; well-formed states have `Nodup` keys.  `hmInsert`,
  `hmRemove`, `hmGet` model `HashMap::insert/remove/get`.
* Rust panics (`assert!`, out-of-bounds `Vec` indexing and slicing) are
  modelled by `Option` (`none` = panic) — except `insert_triplets`, where a
  panic leaves the receiver partially mutated, so it returns
  `Except SparseMatrix SparseMatrix` with `.error` carrying the state at the
  panic exit.
* Rust `shape.0` (rows) is Lean `shape.1`, Rust `shape.1` (cols) is Lean
  `shape.2`.  The dead field `row_iter_idx` of the Rust struct is omitted.
* `Vec::sort_by` (a stable comparison sort) is modelled by
  `List.insertionSort`, which is also stable; within one row the column
  keys are distinct, so any comparison sort produces the same list.
-/

/-- One stored entry of the dictionary-of-keys store: `((row, col), value)`. -/
abbrev Entry : Type := (ℕ × ℕ) × ℚ

structure SparseMatrix where
  shape : ℕ × ℕ
  values : List Entry
  compressed_updated : Bool
  compressed_rowarray : List ℕ
  compressed_colarray : List ℕ
  compressed_dataarray : List ℚ
deriving DecidableEq, Repr

/-- `HashMap::insert`: overwrite the binding if the key is present,
otherwise add a new binding. -/
def hmInsert (l : List Entry) (k : ℕ × ℕ) (v : ℚ) : List Entry :=
  if l.any (fun e => e.1 = k) then
    l.map (fun e => if e.1 = k then (k, v) else e)
  else l ++ [(k, v)]

/-- `HashMap::remove` (the stored value, if any, is read via `hmGet`). -/
def hmRemove (l : List Entry) (k : ℕ × ℕ) : List Entry :=
  l.filter (fun e => ¬ e.1 = k)

/-- `HashMap::get`. -/
def hmGet (l : List Entry) (k : ℕ × ℕ) : Option ℚ :=
  (l.find? (fun e => e.1 = k)).map (fun e => e.2)

/-- `SparseMatrix::new`. -/
def SparseMatrix.new : SparseMatrix :=
  { shape := (0, 0), values := [], compressed_updated := false,
    compressed_rowarray := [], compressed_colarray := [], compressed_dataarray := [] }

/-- `SparseMatrix::empty_with_shape` (the `reserve` call has no observable
effect on the model). -/
def SparseMatrix.empty_with_shape (n m : ℕ) : SparseMatrix :=
  { shape := (n, m), values := [], compressed_updated := false,
    compressed_rowarray := [], compressed_colarray := [], compressed_dataarray := [] }

/-- `SparseMatrix::insert`; `none` models the `assert!` panics. -/
def SparseMatrix.insert (m : SparseMatrix) (row col : ℕ) (value : ℚ) :
    Option SparseMatrix :=
  if row < m.shape.1 ∧ col < m.shape.2 then
    some { m with values := hmInsert m.values (row, col) value,
                  compressed_updated := false }
  else none

/-- `SparseMatrix::identity`. -/
def SparseMatrix.identity (n : ℕ) : Option SparseMatrix :=
  (List.range n).foldlM (fun acc i => acc.insert i i 1)
    (SparseMatrix.empty_with_shape n n)

/-- `SparseMatrix::create_transpose`. -/
def SparseMatrix.create_transpose (m : SparseMatrix) : Option SparseMatrix :=
  m.values.foldlM (fun acc e => acc.insert e.1.2 e.1.1 e.2)
    (SparseMatrix.empty_with_shape m.shape.2 m.shape.1)

/-- The loop body of `insert_triplets`: per-element bounds asserts and raw
`HashMap::insert`s; the dirty flag is not touched inside the loop.  On a
panic the partially mutated receiver is carried in `.error`. -/
def tripletLoop (m : SparseMatrix) : List (ℕ × ℕ × ℚ) → Except SparseMatrix SparseMatrix
  | [] => .ok m
  | (row, col, v) :: rest =>
    if row < m.shape.1 ∧ col < m.shape.2 then
      tripletLoop { m with values := hmInsert m.values (row, col) v } rest
    else .error m

/-- `SparseMatrix::insert_triplets`: the loop, then `compressed_updated = false`
(only reached on the non-panicking exit). -/
def SparseMatrix.insert_triplets (m : SparseMatrix) (ts : List (ℕ × ℕ × ℚ)) :
    Except SparseMatrix SparseMatrix :=
  (tripletLoop m ts).map (fun m' => { m' with compressed_updated := false })

/-- `SparseMatrix::clear_at`: bounds asserts, then flag reset, then removal;
returns the removed value (if any) and the new state, or `none` on panic. -/
def SparseMatrix.clear_at (m : SparseMatrix) (row col : ℕ) :
    Option (Option ℚ × SparseMatrix) :=
  if row < m.shape.1 ∧ col < m.shape.2 then
    some (hmGet m.values (row, col),
      { m with compressed_updated := false,
               values := hmRemove m.values (row, col) })
  else none

/-- `SparseMatrix::peek_at`: outer `Option` models the asserts, inner is the
lookup result. -/
def SparseMatrix.peek_at (m : SparseMatrix) (row col : ℕ) : Option (Option ℚ) :=
  if row < m.shape.1 ∧ col < m.shape.2 then some (hmGet m.values (row, col))
  else none

/-- `SparseMatrix::num_nonzero`. -/
def SparseMatrix.num_nonzero (m : SparseMatrix) : ℕ := m.values.length

/-- `SparseMatrix::transpose_inplace`: swap the shape, drain the map, and
reinsert every entry with its key components swapped. -/
def SparseMatrix.transpose_inplace (m : SparseMatrix) : SparseMatrix :=
  { m with shape := (m.shape.2, m.shape.1),
           values := m.values.foldl
             (fun acc e => hmInsert acc (e.1.2, e.1.1) e.2) [],
           compressed_updated := false }

/-- The bucketing loop of `_update_compressed`: push every entry onto
`row_vecs[row]`; `none` models the panic when `row` is not an index of
`row_vecs` (whose length stays `nrows`). -/
def bucketRows (nrows : ℕ) (entries : List Entry) :
    Option (List (List (ℕ × ℚ))) :=
  entries.foldlM
    (fun acc e =>
      if e.1.1 < acc.length then
        some (acc.set e.1.1 (acc.getD e.1.1 [] ++ [(e.1.2, e.2)]))
      else none)
    (List.replicate nrows [])

/-- The per-row `sort_by(|a, b| a.0.cmp(&b.0))`, a stable sort by column. -/
def sortRow (l : List (ℕ × ℚ)) : List (ℕ × ℚ) :=
  l.insertionSort (fun a b => a.1 ≤ b.1)

/-- The emission loop of `_update_compressed`: starting from
`rowarray = [0]`, append each row's columns and values and then push the
running length of the data array. -/
def emitCompressed (buckets : List (List (ℕ × ℚ))) :
    List ℕ × List ℕ × List ℚ :=
  buckets.foldl
    (fun acc row =>
      (acc.1 ++ [(acc.2.2 ++ row.map Prod.snd).length],
       acc.2.1 ++ row.map Prod.fst,
       acc.2.2 ++ row.map Prod.snd))
    ([0], [], [])

/-- `SparseMatrix::_update_compressed`: bucket by row, sort each bucket by
column, emit the three arrays, set the flag. -/
def SparseMatrix.update_compressed (m : SparseMatrix) : Option SparseMatrix :=
  (bucketRows m.shape.1 m.values).map (fun row_vecs =>
    let arrays := emitCompressed (row_vecs.map sortRow)
    { m with compressed_rowarray := arrays.1,
             compressed_colarray := arrays.2.1,
             compressed_dataarray := arrays.2.2,
             compressed_updated := true })

/-- Rust slice `&v[s..e]`: panics unless `s ≤ e ∧ e ≤ v.len()`. -/
def listSlice {α : Type} (l : List α) (s e : ℕ) : Option (List α) :=
  if s ≤ e ∧ e ≤ l.length then some ((l.take e).drop s) else none

/-- The scatter loop of `RowIterator::next`: `retvec[col] = val` over a
zero-filled vector of length `width`; `none` models the panic when a column
is out of range. -/
def scatter (width : ℕ) (pairs : List (ℕ × ℚ)) : Option (List ℚ) :=
  pairs.foldlM
    (fun acc p => if p.1 < width then some (acc.set p.1 p.2) else none)
    (List.replicate width 0)

/-- `RowIterator::next` at iterator position `idx`: `none` is a panic,
`some none` is iterator exhaustion, `some (some v)` yields the dense row. -/
def rowIterNext (m : SparseMatrix) (idx : ℕ) : Option (Option (List ℚ)) :=
  if idx < m.shape.1 then do
    let s ← m.compressed_rowarray[idx]?
    let e ← m.compressed_rowarray[idx + 1]?
    let cols ← listSlice m.compressed_colarray s e
    let data ← listSlice m.compressed_dataarray s e
    let ret ← scatter m.shape.2 (cols.zip data)
    pure (some ret)
  else pure none

/-- Driving the iterator to exhaustion from position `idx` (each successful
`next` advances `row_iter_idx` by one); `none` propagates a panic. -/
def rowIterFrom (m : SparseMatrix) (idx : ℕ) : Option (List (List ℚ)) :=
  if idx < m.shape.1 then
    match rowIterNext m idx with
    | none => none
    | some none => some []
    | some (some v) => (rowIterFrom m (idx + 1)).map (fun rs => v :: rs)
  else some []
termination_by m.shape.1 - idx

/-- `SparseMatrix::row_iter` followed by collecting the iterator. -/
def SparseMatrix.row_iter_collect (m : SparseMatrix) : Option (List (List ℚ)) :=
  rowIterFrom m 0

/-- `impl Add for &SparseMatrix`: shape assert, clone the left operand, and
fold `peek_at`/`insert` over the right operand's entries. -/
def addMat (a b : SparseMatrix) : Option SparseMatrix :=
  if a.shape = b.shape then
    b.values.foldlM
      (fun loc e => do
        let ex ← loc.peek_at e.1.1 e.1.2
        loc.insert e.1.1 e.1.2 (ex.getD 0 + e.2))
      a
  else none

/-- Well-formedness inherited from `HashMap`: stored keys are distinct. -/
def WF (m : SparseMatrix) : Prop := (m.values.map (fun e => e.1)).Nodup

/-- The documented bounds invariant on stored keys. -/
def InBounds (m : SparseMatrix) : Prop :=
  ∀ e ∈ m.values, e.1.1 < m.shape.1 ∧ e.1.2 < m.shape.2

instance (m : SparseMatrix) : Decidable (WF m) := by
  unfold WF; infer_instance

instance (m : SparseMatrix) : Decidable (InBounds m) := by
  unfold InBounds; infer_instance

/-- The stored `(col, value)` pairs of row `r`, in store iteration order. -/
def rowEntriesL (entries : List Entry) (r : ℕ) : List (ℕ × ℚ) :=
  (entries.filter (fun e => e.1.1 = r)).map (fun e => (e.1.2, e.2))

/-- The compressed view's slice for row `r`: the `(col, value)` pairs between
offsets `rowarray[r]` and `rowarray[r+1]`. -/
def rowSlice (m : SparseMatrix) (r : ℕ) : List (ℕ × ℚ) :=
  (((m.compressed_colarray.zip m.compressed_dataarray).take
      (m.compressed_rowarray.getD (r + 1) 0)).drop
    (m.compressed_rowarray.getD r 0))

/-- The dense reading of a cell: the stored value, or `0` when absent. -/
def denseAt (m : SparseMatrix) (r c : ℕ) : ℚ :=
  (hmGet m.values (r, c)).getD 0

/-- Key-swapping on one entry, as performed by both transpose variants. -/
def swapE (e : Entry) : Entry := ((e.1.2, e.1.1), e.2)

/-- The row buckets produced by a rebuild: for each row in order, its stored
`(col, value)` pairs sorted by column. -/
def sortedBuckets (m : SparseMatrix) : List (List (ℕ × ℚ)) :=
  (List.range m.shape.1).map (fun r => sortRow (rowEntriesL m.values r))

/-- The CSR row-offset array of a bucket list: position `i` holds the total
length of the first `i` buckets. -/
def csrOffsets (bs : List (List (ℕ × ℚ))) : List ℕ :=
  (List.range (bs.length + 1)).map (fun i => (((bs.map List.length).take i).sum))

/-! ### Lemmas about the association-list model of `HashMap` -/

lemma hmGet_cons (a : Entry) (l : List Entry) (k : ℕ × ℕ) :
    hmGet (a :: l) k = if a.1 = k then some a.2 else hmGet l k := by
  by_cases h : a.1 = k
  · simp [hmGet, List.find?_cons_of_pos _
      (show (fun e : Entry => decide (e.1 = k)) a = true by simpa using h), h]
  · simp [hmGet, List.find?_cons_of_neg _
      (show ¬ (fun e : Entry => decide (e.1 = k)) a = true by simpa using h), h]

lemma hmGet_nil (k : ℕ × ℕ) : hmGet [] k = none := rfl

lemma hmGet_hmInsert_self (l : List Entry) (k : ℕ × ℕ) (v : ℚ) :
    hmGet (hmInsert l k v) k = some v := by
  unfold hmInsert
  split
  case isTrue h =>
    induction l with
    | nil => simp at h
    | cons a t ih =>
      by_cases ha : a.1 = k
      · simp [List.map_cons, ha, hmGet_cons]
      · rw [List.map_cons, if_neg ha, hmGet_cons, if_neg ha]
        simp only [List.any_cons, Bool.or_eq_true, decide_eq_true_eq] at h
        exact ih (by simpa using h.resolve_left ha)
  case isFalse h =>
    induction l with
    | nil => simp [hmGet_cons]
    | cons a t ih =>
      simp only [List.any_cons, Bool.or_eq_true, decide_eq_true_eq, not_or] at h
      rw [List.cons_append, hmGet_cons, if_neg h.1]
      exact ih (by simpa using h.2)

lemma hmGet_hmInsert_ne (l : List Entry) (k k' : ℕ × ℕ) (v : ℚ) (h : k' ≠ k) :
    hmGet (hmInsert l k v) k' = hmGet l k' := by
  unfold hmInsert
  split
  case isTrue hany =>
    clear hany
    induction l with
    | nil => rfl
    | cons a t ih =>
      rw [List.map_cons, hmGet_cons, hmGet_cons]
      by_cases ha : a.1 = k
      · rw [if_pos ha]
        simp only [show ¬ (k, v).1 = k' from fun hk => h hk.symm, if_false,
          show ¬ a.1 = k' from ha ▸ fun hk => h hk.symm, if_false]
        exact ih
      · rw [if_neg ha]
        by_cases ha' : a.1 = k'
        · simp [ha']
        · simp only [ha', if_false]
          exact ih
  case isFalse hany =>
    clear hany
    induction l with
    | nil => simp [hmGet_cons, hmGet_nil, Ne.symm h]
    | cons a t ih =>
      rw [List.cons_append, hmGet_cons, hmGet_cons]
      by_cases ha : a.1 = k'
      · simp [ha]
      · simp only [ha, if_false]
        exact ih

lemma hmGet_hmRemove_self (l : List Entry) (k : ℕ × ℕ) :
    hmGet (hmRemove l k) k = none := by
  have hfind : (hmRemove l k).find? (fun e => e.1 = k) = none := by
    rw [List.find?_eq_none]
    intro e he
    have := List.of_mem_filter he
    simpa using this
  simp [hmGet, hfind]

lemma hmGet_eq_some_of_mem (l : List Entry) (k : ℕ × ℕ) (v : ℚ)
    (hnd : (l.map (fun e => e.1)).Nodup) (hmem : (k, v) ∈ l) :
    hmGet l k = some v := by
  induction l with
  | nil => simp at hmem
  | cons a t ih =>
    rw [List.map_cons, List.nodup_cons] at hnd
    rw [hmGet_cons]
    rcases List.mem_cons.mp hmem with hh | hh
    · rw [← hh]; simp
    · have hak : ¬ a.1 = k := by
        intro hk
        exact hnd.1 (hk ▸ (List.mem_map.mpr ⟨(k, v), hh, rfl⟩))
      rw [if_neg hak]
      exact ih hnd.2 hh

lemma mem_of_hmGet_eq_some (l : List Entry) (k : ℕ × ℕ) (v : ℚ)
    (h : hmGet l k = some v) : (k, v) ∈ l := by
  unfold hmGet at h
  cases hfind : l.find? (fun e => e.1 = k) with
  | none => rw [hfind] at h; simp at h
  | some e =>
    rw [hfind] at h
    have hk : e.1 = k := by simpa using List.find?_some hfind
    have hv : e.2 = v := by simpa using h
    have := List.mem_of_find?_eq_some hfind
    rwa [← hk, ← hv, Prod.mk.eta]

lemma hmGet_eq_none_iff (l : List Entry) (k : ℕ × ℕ) :
    hmGet l k = none ↔ ∀ v, (k, v) ∉ l := by
  constructor
  · intro h v hmem
    unfold hmGet at h
    cases hfind : l.find? (fun e => e.1 = k) with
    | none =>
      rw [List.find?_eq_none] at hfind
      exact absurd (by simp : (fun e : Entry => decide (e.1 = k)) (k, v) = true)
        (by simpa using hfind (k, v) hmem)
    | some e => rw [hfind] at h; simp at h
  · intro h
    unfold hmGet
    rw [List.find?_eq_none.mpr]
    · rfl
    · intro e he hk
      simp only [decide_eq_true_eq] at hk
      exact h e.2 (by rw [← hk, Prod.mk.eta]; exact he)

lemma keys_hmInsert (l : List Entry) (k : ℕ × ℕ) (v : ℚ) :
    (hmInsert l k v).map (fun e => e.1) =
      if l.any (fun e => e.1 = k) then l.map (fun e => e.1)
      else l.map (fun e => e.1) ++ [k] := by
  unfold hmInsert
  split
  · rw [List.map_map, List.map_congr_left]
    intro a _
    by_cases ha : a.1 = k <;> simp [ha]
  · simp

lemma wf_hmInsert (l : List Entry) (k : ℕ × ℕ) (v : ℚ)
    (hnd : (l.map (fun e => e.1)).Nodup) :
    ((hmInsert l k v).map (fun e => e.1)).Nodup := by
  rw [keys_hmInsert]
  split
  case isTrue => exact hnd
  case isFalse h =>
    refine List.Nodup.append hnd (List.nodup_singleton k) ?_
    intro x hx hxk
    rcases List.mem_map.mp hx with ⟨e, he, hek⟩
    simp only [List.mem_singleton] at hxk
    simp only [List.any_eq_true, not_exists, not_and] at h
    exact absurd (by simpa using (hek.trans hxk)) (by simpa using h e he)

lemma mem_hmInsert (l : List Entry) (k : ℕ × ℕ) (v : ℚ) (e : Entry)
    (h : e ∈ hmInsert l k v) : e = (k, v) ∨ e ∈ l := by
  unfold hmInsert at h
  split at h
  · rcases List.mem_map.mp h with ⟨a, ha, hae⟩
    by_cases hak : a.1 = k
    · left; rw [← hae]; simp [hak]
    · right; rw [← hae]; simpa [hak] using ha
  · rcases List.mem_append.mp h with h | h
    · right; exact h
    · left; simpa using h

lemma hmInsert_of_not_mem (l : List Entry) (k : ℕ × ℕ) (v : ℚ)
    (h : ∀ e ∈ l, e.1 ≠ k) : hmInsert l k v = l ++ [(k, v)] := by
  unfold hmInsert
  rw [if_neg]
  simp only [List.any_eq_true, not_exists, not_and]
  intro e he
  simpa using h e he

/-! ### `insert_triplets` loop facts -/

lemma tripletLoop_flag (ts : List (ℕ × ℕ × ℚ)) :
    ∀ m m' : SparseMatrix,
      (tripletLoop m ts = .ok m' → m'.compressed_updated = m.compressed_updated) ∧
      (tripletLoop m ts = .error m' → m'.compressed_updated = m.compressed_updated) := by
  induction ts with
  | nil =>
    intro m m'
    constructor
    · intro h
      cases h
      rfl
    · intro h
      cases h
  | cons t rest ih =>
    intro m m'
    obtain ⟨row, col, v⟩ := t
    constructor
    · intro h
      unfold tripletLoop at h
      split at h
      · exact (ih { m with values := hmInsert m.values (row, col) v } m').1 h
      · cases h
    · intro h
      unfold tripletLoop at h
      split at h
      · exact (ih { m with values := hmInsert m.values (row, col) v } m').2 h
      · cases h
        rfl

lemma tripletLoop_inbounds (ts : List (ℕ × ℕ × ℚ)) :
    ∀ m m' : SparseMatrix, InBounds m →
      (tripletLoop m ts = .ok m' → InBounds m') ∧
      (tripletLoop m ts = .error m' → InBounds m') := by
  induction ts with
  | nil =>
    intro m m' hb
    constructor
    · intro h
      cases h
      exact hb
    · intro h
      cases h
  | cons t rest ih =>
    intro m m' hb
    obtain ⟨row, col, v⟩ := t
    have hstep : ∀ hrc : row < m.shape.1 ∧ col < m.shape.2,
        InBounds { m with values := hmInsert m.values (row, col) v } := by
      intro hrc e he
      rcases mem_hmInsert _ _ _ _ he with h | h
      · rw [h]; exact hrc
      · exact hb e h
    constructor
    · intro h
      unfold tripletLoop at h
      split at h
      case isTrue hrc => exact (ih _ m' (hstep hrc)).1 h
      case isFalse => cases h
    · intro h
      unfold tripletLoop at h
      split at h
      case isTrue hrc => exact (ih _ m' (hstep hrc)).2 h
      case isFalse =>
        cases h
        exact hb

/-- C7: within bounds, `insert` succeeds and a subsequent `peek_at` returns
exactly the inserted value; out of bounds, `insert` panics (modelled as
`none`, the receiver being untouched by a failed `assert!`). -/
theorem insert_peek_roundtrip (m : SparseMatrix) (r c : ℕ) (v : ℚ) :
    (r < m.shape.1 → c < m.shape.2 →
      ∃ m', m.insert r c v = some m' ∧ m'.peek_at r c = some (some v)) ∧
    (m.shape.1 ≤ r ∨ m.shape.2 ≤ c → m.insert r c v = none) := by
  constructor
  · intro hr hc
    refine ⟨_, by rw [SparseMatrix.insert, if_pos ⟨hr, hc⟩], ?_⟩
    rw [SparseMatrix.peek_at, if_pos ⟨hr, hc⟩, hmGet_hmInsert_self]
  · intro h
    rw [SparseMatrix.insert, if_neg]
    rcases h with h | h
    · exact fun hrc => absurd hrc.1 (Nat.not_lt.mpr h)
    · exact fun hrc => absurd hrc.2 (Nat.not_lt.mpr h)

/-- C7 witness at a concrete matrix. -/
theorem insert_peek_roundtrip_witness :
    ∃ m', (SparseMatrix.empty_with_shape 2 3).insert 1 2 7 = some m' ∧
      m'.peek_at 1 2 = some (some 7) :=
  (insert_peek_roundtrip (SparseMatrix.empty_with_shape 2 3) 1 2 7).1
    (by decide) (by decide)

/-- C8: `clear_at` on an absent in-bounds cell returns the absent marker;
insert-then-clear returns the inserted value and a subsequent `peek_at` is
absent; any successful `clear_at` resets the freshness flag; out-of-bounds
coordinates panic (`none`). -/
theorem clear_at_spec (m : SparseMatrix) (r c : ℕ) (v : ℚ) :
    (r < m.shape.1 → c < m.shape.2 →
      (hmGet m.values (r, c) = none →
        ∃ m', m.clear_at r c = some (none, m')) ∧
      (∃ m₁ m₂, m.insert r c v = some m₁ ∧
        m₁.clear_at r c = some (some v, m₂) ∧
        m₂.peek_at r c = some none) ∧
      (∀ res m', m.clear_at r c = some (res, m') →
        m'.compressed_updated = false)) ∧
    (m.shape.1 ≤ r ∨ m.shape.2 ≤ c → m.clear_at r c = none) := by
  constructor
  · intro hr hc
    refine ⟨?_, ?_, ?_⟩
    · intro habs
      exact ⟨_, by rw [SparseMatrix.clear_at, if_pos ⟨hr, hc⟩, habs]⟩
    · refine ⟨{ m with values := hmInsert m.values (r, c) v, compressed_updated := false },
        { m with values := hmRemove (hmInsert m.values (r, c) v) (r, c),
                 compressed_updated := false }, ?_, ?_, ?_⟩
      · rw [SparseMatrix.insert, if_pos ⟨hr, hc⟩]
      · rw [SparseMatrix.clear_at, if_pos ⟨hr, hc⟩]
        rw [hmGet_hmInsert_self]
      · rw [SparseMatrix.peek_at, if_pos ⟨hr, hc⟩, hmGet_hmRemove_self]
    · intro res m' h
      rw [SparseMatrix.clear_at, if_pos ⟨hr, hc⟩] at h
      cases h
      rfl
  · intro h
    rw [SparseMatrix.clear_at, if_neg]
    rcases h with h | h
    · exact fun hrc => absurd hrc.1 (Nat.not_lt.mpr h)
    · exact fun hrc => absurd hrc.2 (Nat.not_lt.mpr h)

/-- C8 witness at a concrete matrix. -/
theorem clear_at_spec_witness :
    (hmGet (SparseMatrix.empty_with_shape 2 2).values (0, 1) = none →
      ∃ m', (SparseMatrix.empty_with_shape 2 2).clear_at 0 1 = some (none, m')) ∧
    (∃ m₁ m₂, (SparseMatrix.empty_with_shape 2 2).insert 0 1 4 = some m₁ ∧
      m₁.clear_at 0 1 = some (some 4, m₂) ∧ m₂.peek_at 0 1 = some none) ∧
    (∀ res m', (SparseMatrix.empty_with_shape 2 2).clear_at 0 1 = some (res, m') →
      m'.compressed_updated = false) :=
  (clear_at_spec (SparseMatrix.empty_with_shape 2 2) 0 1 4).1 (by decide) (by decide)

/-- C4 (amended): `insert`, `clear_at` and `transpose_inplace` always leave
the freshness flag `false`; `insert_triplets` leaves it `false` on the
successful exit, but on the panicking exit (an out-of-bounds triplet) the
flag keeps its previous value even when earlier triplets were applied. -/
theorem mutations_reset_flag (m : SparseMatrix) (r c : ℕ) (v : ℚ)
    (ts : List (ℕ × ℕ × ℚ)) :
    (∀ m', m.insert r c v = some m' → m'.compressed_updated = false) ∧
    (∀ res m', m.clear_at r c = some (res, m') → m'.compressed_updated = false) ∧
    m.transpose_inplace.compressed_updated = false ∧
    (∀ m', m.insert_triplets ts = .ok m' → m'.compressed_updated = false) ∧
    (∀ m', m.insert_triplets ts = .error m' →
      m'.compressed_updated = m.compressed_updated) := by
  refine ⟨?_, ?_, rfl, ?_, ?_⟩
  · intro m' h
    rw [SparseMatrix.insert] at h
    split at h
    · cases h; rfl
    · cases h
  · intro res m' h
    rw [SparseMatrix.clear_at] at h
    split at h
    · cases h; rfl
    · cases h
  · intro m' h
    rw [SparseMatrix.insert_triplets] at h
    cases hloop : tripletLoop m ts with
    | ok mo => rw [hloop] at h; cases h; rfl
    | error me => rw [hloop] at h; cases h
  · intro m' h
    rw [SparseMatrix.insert_triplets] at h
    cases hloop : tripletLoop m ts with
    | ok mo => rw [hloop] at h; cases h
    | error me =>
      rw [hloop] at h
      cases h
      exact (tripletLoop_flag ts m m').2 hloop

/-- C4 witness at a concrete matrix. -/
theorem mutations_reset_flag_witness :
    ∀ m', (SparseMatrix.empty_with_shape 1 1).insert 0 0 5 = some m' →
      m'.compressed_updated = false :=
  (mutations_reset_flag (SparseMatrix.empty_with_shape 1 1) 0 0 5 []).1

/-- C4 counterexample: starting from a matrix with a fresh cache, the call
`insert_triplets [(0,0,5), (1,0,6)]` on a `1 × 1` matrix applies the first
triplet, panics on the second, and exits with the freshness flag still
`true` — refuting the claim that the flag is `false` at every exit at which
at least one triplet was applied. -/
theorem insert_triplets_stale_flag_cex :
    SparseMatrix.insert_triplets
        { shape := (1, 1), values := [], compressed_updated := true,
          compressed_rowarray := [0, 0], compressed_colarray := [],
          compressed_dataarray := [] }
        [(0, 0, 5), (1, 0, 6)] =
      .error
        { shape := (1, 1), values := [((0, 0), 5)], compressed_updated := true,
          compressed_rowarray := [0, 0], compressed_colarray := [],
          compressed_dataarray := [] } := by
  rfl

/-! ### Transpose -/

lemma create_transpose_fold (entries : List Entry) :
    ∀ acc : SparseMatrix,
      (∀ e ∈ entries, e.1.1 < acc.shape.2 ∧ e.1.2 < acc.shape.1) →
      ((entries.map (fun e => e.1)).Nodup) →
      (∀ e ∈ entries, ∀ e' ∈ acc.values, e'.1 ≠ (e.1.2, e.1.1)) →
      ∃ t, entries.foldlM (fun acc e => acc.insert e.1.2 e.1.1 e.2) acc = some t ∧
        t.shape = acc.shape ∧ t.values = acc.values ++ entries.map swapE := by
  induction entries with
  | nil =>
    intro acc _ _ _
    exact ⟨acc, rfl, rfl, by simp⟩
  | cons e rest ih =>
    intro acc hb hnd hfresh
    have hbe := hb e (List.mem_cons_self e rest)
    have hins : acc.insert e.1.2 e.1.1 e.2 =
        some { acc with values := hmInsert acc.values (e.1.2, e.1.1) e.2,
                        compressed_updated := false } := by
      rw [SparseMatrix.insert, if_pos ⟨hbe.2, hbe.1⟩]
    have happend : hmInsert acc.values (e.1.2, e.1.1) e.2 =
        acc.values ++ [((e.1.2, e.1.1), e.2)] :=
      hmInsert_of_not_mem _ _ _
        (fun e' he' => hfresh e (List.mem_cons_self e rest) e' he')
    rw [List.map_cons, List.nodup_cons] at hnd
    obtain ⟨t, hfold, hshape, hvals⟩ :=
      ih { acc with values := hmInsert acc.values (e.1.2, e.1.1) e.2,
                    compressed_updated := false }
        (fun e' he' => hb e' (List.mem_cons_of_mem e he'))
        hnd.2
        (by
          intro e' he' e'' he''
          rw [happend] at he''
          rcases List.mem_append.mp he'' with h | h
          · exact hfresh e' (List.mem_cons_of_mem e he') e'' h
          · simp only [List.mem_singleton] at h
            rw [h]
            simp only [ne_eq, Prod.mk.injEq, not_and]
            intro h2 h1
            exact hnd.1 (List.mem_map.mpr ⟨e', he', by
              exact Prod.ext h1.symm h2.symm⟩))
    refine ⟨t, ?_, hshape, ?_⟩
    · rw [List.foldlM_cons, hins]
      exact hfold
    · rw [hvals, happend, List.map_cons, List.append_assoc]
      rfl

lemma wf_swap (entries : List Entry) (hnd : (entries.map (fun e => e.1)).Nodup) :
    ((entries.map swapE).map (fun e => e.1)).Nodup := by
  rw [List.map_map]
  have : ((fun e : Entry => e.1) ∘ swapE) =
      (fun k : ℕ × ℕ => (k.2, k.1)) ∘ (fun e : Entry => e.1) := by
    funext e
    rfl
  rw [this, ← List.map_map]
  exact hnd.map (fun a b h => by
    simpa [Prod.ext_iff, and_comm] using h)

/-- C6: `create_transpose` produces the swapped-shape matrix whose entries
are exactly the key-swapped entries of the source (the source itself is a
pure value here, hence unmodified), and applying it twice restores the
shape and the exact entry list (hence the same set of `(r,c,v)` triples). -/
theorem create_transpose_roundtrip (m : SparseMatrix) (hnd : WF m)
    (hb : InBounds m) :
    ∃ t, m.create_transpose = some t ∧
      t.shape = (m.shape.2, m.shape.1) ∧
      t.values = m.values.map swapE ∧
      (∀ r c v, ((c, r), v) ∈ t.values ↔ ((r, c), v) ∈ m.values) ∧
      ∃ tt, t.create_transpose = some tt ∧
        tt.shape = m.shape ∧ tt.values = m.values := by
  obtain ⟨t, hfold, hshape, hvals⟩ :=
    create_transpose_fold m.values (SparseMatrix.empty_with_shape m.shape.2 m.shape.1)
      (fun e he => ⟨(hb e he).1, (hb e he).2⟩) hnd
      (by intro e _ e' he'; simp [SparseMatrix.empty_with_shape] at he')
  have hshape' : t.shape = (m.shape.2, m.shape.1) := hshape
  have hvals' : t.values = m.values.map swapE := by simpa using hvals
  refine ⟨t, hfold, hshape', hvals', ?_, ?_⟩
  · intro r c v
    rw [hvals']
    constructor
    · intro hmem
      rcases List.mem_map.mp hmem with ⟨e, he, heq⟩
      have : e = ((r, c), v) := by
        obtain ⟨⟨er, ec⟩, ev⟩ := e
        simp only [swapE, Prod.mk.injEq] at heq
        simp [heq.1.1, heq.1.2, heq.2]
      rwa [this] at he
    · intro hmem
      exact List.mem_map.mpr ⟨((r, c), v), hmem, rfl⟩
  · obtain ⟨tt, hfold2, hshape2, hvals2⟩ :=
      create_transpose_fold t.values (SparseMatrix.empty_with_shape t.shape.2 t.shape.1)
        (by
          intro e he
          rw [hvals'] at he
          rcases List.mem_map.mp he with ⟨e0, he0, heq⟩
          have h1 : (SparseMatrix.empty_with_shape t.shape.2 t.shape.1).shape.2 = t.shape.1 := rfl
          have h2 : (SparseMatrix.empty_with_shape t.shape.2 t.shape.1).shape.1 = t.shape.2 := rfl
          rw [h1, h2, ← heq, hshape']
          exact ⟨(hb e0 he0).2, (hb e0 he0).1⟩)
        (by rw [hvals']; exact wf_swap m.values hnd)
        (by intro e _ e' he'; simp [SparseMatrix.empty_with_shape] at he')
    refine ⟨tt, hfold2, ?_, ?_⟩
    · rw [hshape2]
      show (t.shape.2, t.shape.1) = m.shape
      rw [hshape']
    · rw [hvals2, hvals']
      simp only [SparseMatrix.empty_with_shape, List.nil_append, List.map_map]
      have : (swapE ∘ swapE) = id := by
        funext e
        rfl
      rw [this, List.map_id]

/-- C6 witness at a concrete matrix. -/
theorem create_transpose_roundtrip_witness :
    ∃ t, ({ shape := (2, 3), values := [((0, 2), 5), ((1, 0), 7)],
            compressed_updated := false, compressed_rowarray := [],
            compressed_colarray := [], compressed_dataarray := [] } :
              SparseMatrix).create_transpose = some t ∧
      t.shape = ((3 : ℕ), (2 : ℕ)) ∧
      t.values = [((0, 2), 5), ((1, 0), 7)].map swapE ∧
      (∀ r c v, ((c, r), v) ∈ t.values ↔
        ((r, c), v) ∈ ([((0, 2), 5), ((1, 0), 7)] : List Entry)) ∧
      ∃ tt, t.create_transpose = some tt ∧
        tt.shape = ((2 : ℕ), (3 : ℕ)) ∧
        tt.values = ([((0, 2), 5), ((1, 0), 7)] : List Entry) :=
  create_transpose_roundtrip
    { shape := (2, 3), values := [((0, 2), 5), ((1, 0), 7)],
      compressed_updated := false, compressed_rowarray := [],
      compressed_colarray := [], compressed_dataarray := [] }
    (by decide) (by decide)

/-! ### Addition -/

lemma addMat_fold (entries : List Entry) :
    ∀ loc : SparseMatrix,
      (∀ e ∈ entries, e.1.1 < loc.shape.1 ∧ e.1.2 < loc.shape.2) →
      ((entries.map (fun e => e.1)).Nodup) →
      ∃ s, entries.foldlM
          (fun loc e => do
            let ex ← loc.peek_at e.1.1 e.1.2
            loc.insert e.1.1 e.1.2 (ex.getD 0 + e.2))
          loc = some s ∧
        s.shape = loc.shape ∧
        (InBounds loc → InBounds s) ∧
        ∀ r c, denseAt s r c = denseAt loc r c + (hmGet entries (r, c)).getD 0 := by
  induction entries with
  | nil =>
    intro loc _ _
    exact ⟨loc, rfl, rfl, fun h => h, fun r c => by simp [hmGet_nil]⟩
  | cons e rest ih =>
    intro loc hbnd hnd
    have hbe := hbnd e (List.mem_cons_self e rest)
    have hpeek : loc.peek_at e.1.1 e.1.2 = some (hmGet loc.values (e.1.1, e.1.2)) := by
      rw [SparseMatrix.peek_at, if_pos ⟨hbe.1, hbe.2⟩]
    have hins : loc.insert e.1.1 e.1.2 ((hmGet loc.values (e.1.1, e.1.2)).getD 0 + e.2) =
        some { loc with
          values := hmInsert loc.values (e.1.1, e.1.2)
            ((hmGet loc.values (e.1.1, e.1.2)).getD 0 + e.2),
          compressed_updated := false } := by
      rw [SparseMatrix.insert, if_pos ⟨hbe.1, hbe.2⟩]
    set loc' : SparseMatrix := { loc with
      values := hmInsert loc.values (e.1.1, e.1.2)
        ((hmGet loc.values (e.1.1, e.1.2)).getD 0 + e.2),
      compressed_updated := false } with hloc'
    rw [List.map_cons, List.nodup_cons] at hnd
    obtain ⟨s, hfold, hshape, hib, hdense⟩ :=
      ih loc' (fun e' he' => hbnd e' (List.mem_cons_of_mem e he')) hnd.2
    refine ⟨s, ?_, hshape, ?_, ?_⟩
    · simp only [List.foldlM_cons, hpeek, hins, Option.bind_eq_bind, Option.some_bind]
      exact hfold
    · intro hb
      refine hib ?_
      intro e' he'
      rcases mem_hmInsert _ _ _ _ he' with h | h
      · rw [h]
        exact hbe
      · exact hb e' h
    · intro r c
      rw [hdense r c, hmGet_cons]
      by_cases hk : (r, c) = (e.1.1, e.1.2)
      · have hkey : e.1 = (r, c) := by rw [hk, Prod.mk.eta]
        have hnone : hmGet rest (r, c) = none := by
          rw [hmGet_eq_none_iff]
          intro v hv
          exact hnd.1 (hkey ▸ List.mem_map.mpr ⟨((r, c), v), hv, rfl⟩)
        rw [if_pos hkey, hnone]
        show denseAt loc' r c + 0 = denseAt loc r c + e.2
        have : denseAt loc' r c = denseAt loc r c + e.2 := by
          unfold denseAt
          rw [hloc']
          show (hmGet (hmInsert loc.values (e.1.1, e.1.2) _) (r, c)).getD 0 = _
          rw [hk, hmGet_hmInsert_self]
          rfl
        rw [this, add_zero]
      · have hkey : ¬ e.1 = (r, c) := fun hkey => hk (by rw [← hkey, Prod.mk.eta])
        rw [if_neg hkey]
        have : denseAt loc' r c = denseAt loc r c := by
          unfold denseAt
          rw [hloc']
          show (hmGet (hmInsert loc.values (e.1.1, e.1.2) _) (r, c)).getD 0 = _
          rw [hmGet_hmInsert_ne _ _ _ _ hk]
        rw [this]

/-- C5: for matrices of equal shape (with the right operand's stored keys in
bounds, as the data model guarantees), addition succeeds and every cell of
the result is the sum of the two operands' cells, absent entries reading as
`0`; operands are pure values here, hence unmodified.  For different
shapes, addition panics (`none`). -/
theorem add_spec (a b : SparseMatrix) (hnd : WF b) (hb : InBounds b) :
    (a.shape = b.shape →
      ∃ s, addMat a b = some s ∧ s.shape = a.shape ∧
        ∀ r c, denseAt s r c = denseAt a r c + denseAt b r c) ∧
    (a.shape ≠ b.shape → addMat a b = none) := by
  constructor
  · intro hshape
    obtain ⟨s, hfold, hsh, _, hdense⟩ :=
      addMat_fold b.values a
        (fun e he => ⟨hshape ▸ (hb e he).1, hshape ▸ (hb e he).2⟩) hnd
    refine ⟨s, ?_, hsh, hdense⟩
    rw [addMat, if_pos hshape]
    exact hfold
  · intro hshape
    rw [addMat, if_neg hshape]

/-- C5 witness at two concrete matrices of shape `(1, 2)`. -/
theorem add_spec_witness :
    ∃ s, addMat
        { shape := (1, 2), values := [((0, 0), 3)], compressed_updated := false,
          compressed_rowarray := [], compressed_colarray := [],
          compressed_dataarray := [] }
        { shape := (1, 2), values := [((0, 0), 4), ((0, 1), 6)],
          compressed_updated := false, compressed_rowarray := [],
          compressed_colarray := [], compressed_dataarray := [] } = some s ∧
      s.shape = ((1 : ℕ), (2 : ℕ)) ∧
      ∀ r c, denseAt s r c =
        denseAt
          { shape := (1, 2), values := [((0, 0), 3)], compressed_updated := false,
            compressed_rowarray := [], compressed_colarray := [],
            compressed_dataarray := [] } r c +
        denseAt
          { shape := (1, 2), values := [((0, 0), 4), ((0, 1), 6)],
            compressed_updated := false, compressed_rowarray := [],
            compressed_colarray := [], compressed_dataarray := [] } r c :=
  (add_spec _ _ (by decide) (by decide)).1 (by decide)

/-! ### Bounds invariant -/

lemma foldlM_insert_inbounds {α : Type} (f : α → ℕ × ℕ × ℚ) (l : List α) :
    ∀ acc : SparseMatrix,
      (∀ x ∈ l, (f x).1 < acc.shape.1 ∧ (f x).2.1 < acc.shape.2) →
      InBounds acc →
      ∃ t, l.foldlM (fun acc x => acc.insert (f x).1 (f x).2.1 (f x).2.2) acc = some t ∧
        t.shape = acc.shape ∧ InBounds t := by
  induction l with
  | nil =>
    intro acc _ hb
    exact ⟨acc, rfl, rfl, hb⟩
  | cons x rest ih =>
    intro acc hl hb
    have hx := hl x (List.mem_cons_self x rest)
    have hins : acc.insert (f x).1 (f x).2.1 (f x).2.2 =
        some { acc with values := hmInsert acc.values ((f x).1, (f x).2.1) (f x).2.2,
                        compressed_updated := false } := by
      rw [SparseMatrix.insert, if_pos ⟨hx.1, hx.2⟩]
    obtain ⟨t, hfold, hshape, hbt⟩ :=
      ih { acc with values := hmInsert acc.values ((f x).1, (f x).2.1) (f x).2.2,
                    compressed_updated := false }
        (fun y hy => hl y (List.mem_cons_of_mem x hy))
        (by
          intro e' he'
          rcases mem_hmInsert _ _ _ _ he' with h | h
          · rw [h]; exact hx
          · exact hb e' h)
    refine ⟨t, ?_, hshape, hbt⟩
    simp only [List.foldlM_cons, hins, Option.bind_eq_bind, Option.some_bind]
    exact hfold

lemma foldl_hmInsert_swap_inbounds (entries : List Entry) (R C : ℕ)
    (hE : ∀ e ∈ entries, e.1.2 < R ∧ e.1.1 < C) :
    ∀ acc : List Entry, (∀ e' ∈ acc, e'.1.1 < R ∧ e'.1.2 < C) →
      ∀ e' ∈ entries.foldl (fun acc e => hmInsert acc (e.1.2, e.1.1) e.2) acc,
        e'.1.1 < R ∧ e'.1.2 < C := by
  induction entries with
  | nil =>
    intro acc hacc e' he'
    exact hacc e' he'
  | cons e rest ih =>
    intro acc hacc e' he'
    have he := hE e (List.mem_cons_self e rest)
    refine ih (fun y hy => hE y (List.mem_cons_of_mem e hy))
      (hmInsert acc (e.1.2, e.1.1) e.2) ?_ e' he'
    intro e'' he''
    rcases mem_hmInsert _ _ _ _ he'' with h | h
    · rw [h]; exact he
    · exact hacc e'' h

/-- C9: every stored key lies strictly inside the shape, for every
constructor (`new`, `empty_with_shape`, `identity`, `create_transpose`,
addition) and after every mutation of a matrix already satisfying the
invariant (`insert`, `insert_triplets` on both exits, `clear_at`,
`transpose_inplace`, which swaps the shape and re-keys every entry). -/
theorem bounds_invariant :
    InBounds SparseMatrix.new ∧
    (∀ n k : ℕ, InBounds (SparseMatrix.empty_with_shape n k)) ∧
    (∀ n : ℕ, ∃ I, SparseMatrix.identity n = some I ∧
      I.shape = (n, n) ∧ InBounds I) ∧
    (∀ m : SparseMatrix, InBounds m →
      ∃ t, m.create_transpose = some t ∧ InBounds t) ∧
    (∀ a b : SparseMatrix, WF b → InBounds a → InBounds b → a.shape = b.shape →
      ∃ s, addMat a b = some s ∧ InBounds s) ∧
    (∀ (m m' : SparseMatrix) (r c : ℕ) (v : ℚ), InBounds m →
      m.insert r c v = some m' → InBounds m') ∧
    (∀ (m : SparseMatrix) (ts : List (ℕ × ℕ × ℚ)), InBounds m →
      (∀ m', m.insert_triplets ts = .ok m' → InBounds m') ∧
      (∀ m', m.insert_triplets ts = .error m' → InBounds m')) ∧
    (∀ (m m' : SparseMatrix) (r c : ℕ) (res : Option ℚ), InBounds m →
      m.clear_at r c = some (res, m') → InBounds m') ∧
    (∀ m : SparseMatrix, InBounds m → InBounds m.transpose_inplace) := by
  refine ⟨?_, ?_, ?_, ?_, ?_, ?_, ?_, ?_, ?_⟩
  · intro e he
    simp [SparseMatrix.new] at he
  · intro n k e he
    simp [SparseMatrix.empty_with_shape] at he
  · intro n
    obtain ⟨I, hfold, hshape, hb⟩ :=
      foldlM_insert_inbounds (fun i => (i, i, (1 : ℚ))) (List.range n)
        (SparseMatrix.empty_with_shape n n)
        (fun i hi => ⟨List.mem_range.mp hi, List.mem_range.mp hi⟩)
        (by intro e he; simp [SparseMatrix.empty_with_shape] at he)
    exact ⟨I, hfold, hshape, hb⟩
  · intro m hb
    obtain ⟨t, hfold, hshape, hbt⟩ :=
      foldlM_insert_inbounds (fun e : Entry => (e.1.2, e.1.1, e.2)) m.values
        (SparseMatrix.empty_with_shape m.shape.2 m.shape.1)
        (fun e he => ⟨(hb e he).2, (hb e he).1⟩)
        (by intro e he; simp [SparseMatrix.empty_with_shape] at he)
    exact ⟨t, hfold, hbt⟩
  · intro a b hnd hba hbb hshape
    obtain ⟨s, hfold, hsh, hib, _⟩ :=
      addMat_fold b.values a
        (fun e he => ⟨hshape ▸ (hbb e he).1, hshape ▸ (hbb e he).2⟩) hnd
    refine ⟨s, ?_, ?_⟩
    · rw [addMat, if_pos hshape]
      exact hfold
    · intro e he
      exact hib hba e he
  · intro m m' r c v hb h
    rw [SparseMatrix.insert] at h
    split at h
    case isTrue hrc =>
      cases h
      intro e he
      rcases mem_hmInsert _ _ _ _ he with h | h
      · rw [h]; exact hrc
      · exact hb e h
    case isFalse => cases h
  · intro m ts hb
    constructor
    · intro m' h
      rw [SparseMatrix.insert_triplets] at h
      cases hloop : tripletLoop m ts with
      | ok mo =>
        rw [hloop] at h
        cases h
        intro e he
        exact (tripletLoop_inbounds ts m mo hb).1 hloop e he
      | error me => rw [hloop] at h; cases h
    · intro m' h
      rw [SparseMatrix.insert_triplets] at h
      cases hloop : tripletLoop m ts with
      | ok mo => rw [hloop] at h; cases h
      | error me =>
        rw [hloop] at h
        cases h
        exact (tripletLoop_inbounds ts m m' hb).2 hloop
  · intro m m' r c res hb h
    rw [SparseMatrix.clear_at] at h
    split at h
    case isTrue hrc =>
      cases h
      intro e he
      exact hb e (List.mem_of_mem_filter he)
    case isFalse => cases h
  · intro m hb e' he'
    exact foldl_hmInsert_swap_inbounds m.values m.shape.2 m.shape.1
      (fun e he => ⟨(hb e he).2, (hb e he).1⟩) [] (by simp) e' he'

/-- C9 witness at concrete inputs. -/
theorem bounds_invariant_witness :
    ∃ I, SparseMatrix.identity 2 = some I ∧ I.shape = ((2 : ℕ), (2 : ℕ)) ∧ InBounds I :=
  bounds_invariant.2.2.1 2

/-! ### The bucketing phase of `_update_compressed` -/

lemma range_map_getD {α : Type} (acc : List α) (d : α) :
    (List.range acc.length).map (fun r => acc.getD r d) = acc := by
  apply List.ext_getElem
  · simp
  · intro i h1 h2
    simp [List.getD_eq_getElem?_getD, List.getElem?_eq_getElem h2]

lemma getD_set_self {α : Type} (l : List α) (i : ℕ) (a d : α) (h : i < l.length) :
    (l.set i a).getD i d = a := by
  rw [List.getD_eq_getElem?_getD, List.getElem?_set_self h]
  rfl

lemma getD_set_ne {α : Type} (l : List α) (i j : ℕ) (a d : α) (h : i ≠ j) :
    (l.set i a).getD j d = l.getD j d := by
  rw [List.getD_eq_getElem?_getD, List.getElem?_set_ne h, ← List.getD_eq_getElem?_getD]

lemma rowEntriesL_nil (r : ℕ) : rowEntriesL [] r = [] := rfl

lemma rowEntriesL_cons (e : Entry) (rest : List Entry) (r : ℕ) :
    rowEntriesL (e :: rest) r =
      if e.1.1 = r then (e.1.2, e.2) :: rowEntriesL rest r
      else rowEntriesL rest r := by
  unfold rowEntriesL
  rw [List.filter_cons]
  by_cases h : e.1.1 = r
  · simp [h]
  · simp [h]

lemma bucketRows_go (entries : List Entry) :
    ∀ acc : List (List (ℕ × ℚ)),
      (∀ e ∈ entries, e.1.1 < acc.length) →
      entries.foldlM
          (fun acc e =>
            if e.1.1 < acc.length then
              some (acc.set e.1.1 (acc.getD e.1.1 [] ++ [(e.1.2, e.2)]))
            else none)
          acc =
        some ((List.range acc.length).map
          (fun r => acc.getD r [] ++ rowEntriesL entries r)) := by
  induction entries with
  | nil =>
    intro acc _
    simp only [List.foldlM_nil, rowEntriesL_nil, List.append_nil]
    rw [range_map_getD]
    rfl
  | cons e rest ih =>
    intro acc h
    have he := h e (List.mem_cons_self e rest)
    simp only [List.foldlM_cons]
    rw [if_pos he]
    simp only [Option.bind_eq_bind, Option.some_bind]
    rw [ih (acc.set e.1.1 (acc.getD e.1.1 [] ++ [(e.1.2, e.2)]))
      (by intro e' he'; simpa using h e' (List.mem_cons_of_mem e he'))]
    simp only [List.length_set]
    congr 1
    apply List.map_congr_left
    intro r hr
    rw [rowEntriesL_cons]
    by_cases hre : e.1.1 = r
    · rw [if_pos hre, ← hre,
        getD_set_self _ _ _ _ he]
      simp [List.append_assoc, hre]
    · rw [if_neg hre, getD_set_ne _ _ _ _ _ hre]

lemma bucketRows_eq (nrows : ℕ) (entries : List Entry)
    (h : ∀ e ∈ entries, e.1.1 < nrows) :
    bucketRows nrows entries =
      some ((List.range nrows).map (fun r => rowEntriesL entries r)) := by
  unfold bucketRows
  rw [bucketRows_go entries (List.replicate nrows [])
    (by intro e he; simpa using h e he)]
  simp only [List.length_replicate]
  congr 1
  apply List.map_congr_left
  intro r hr
  rw [List.getD_eq_getElem?_getD, List.getElem?_eq_getElem
    (by simpa using List.mem_range.mp hr)]
  simp

/-! ### The per-row sort -/

lemma sortRow_perm (l : List (ℕ × ℚ)) : List.Perm (sortRow l) l :=
  List.perm_insertionSort _ l

lemma sortRow_sorted (l : List (ℕ × ℚ)) :
    (sortRow l).Sorted (fun a b : ℕ × ℚ => a.1 ≤ b.1) := by
  haveI : IsTotal (ℕ × ℚ) (fun a b => a.1 ≤ b.1) := ⟨fun a b => Nat.le_total a.1 b.1⟩
  haveI : IsTrans (ℕ × ℚ) (fun a b => a.1 ≤ b.1) := ⟨fun _ _ _ => Nat.le_trans⟩
  exact List.sorted_insertionSort _ l

lemma sortRow_length (l : List (ℕ × ℚ)) : (sortRow l).length = l.length :=
  (sortRow_perm l).length_eq

lemma nodup_cols (entries : List Entry) (r : ℕ)
    (hnd : (entries.map (fun e => e.1)).Nodup) :
    ((rowEntriesL entries r).map Prod.fst).Nodup := by
  have hkeys : (((entries.filter (fun e => e.1.1 = r)).map (fun e => e.1))).Nodup :=
    List.Nodup.sublist (List.Sublist.map _ (List.filter_sublist entries)) hnd
  have hfst : ∀ k ∈ (entries.filter (fun e => e.1.1 = r)).map (fun e : Entry => e.1),
      k.1 = r := by
    intro k hk
    rcases List.mem_map.mp hk with ⟨e, he, hek⟩
    have := List.of_mem_filter he
    rw [← hek]
    simpa using this
  have : (rowEntriesL entries r).map Prod.fst =
      ((entries.filter (fun e => e.1.1 = r)).map (fun e : Entry => e.1)).map Prod.snd := by
    unfold rowEntriesL
    rw [List.map_map, List.map_map]
    rfl
  rw [this]
  refine List.Nodup.map_on ?_ hkeys
  intro x hx y hy hxy
  have hx1 := hfst x hx
  have hy1 := hfst y hy
  exact Prod.ext (hx1.trans hy1.symm) hxy

lemma sorted_lt_of_nodup (l : List (ℕ × ℚ))
    (hs : l.Sorted (fun a b : ℕ × ℚ => a.1 ≤ b.1))
    (hnd : (l.map Prod.fst).Nodup) :
    (l.map Prod.fst).Sorted (fun a b : ℕ => a < b) := by
  have hle : (l.map Prod.fst).Pairwise (fun a b : ℕ => a ≤ b) :=
    List.pairwise_map.mpr hs
  have hne : (l.map Prod.fst).Pairwise (fun a b : ℕ => a ≠ b) :=
    hnd
  exact (hle.and hne).imp (fun h => lt_of_le_of_ne h.1 h.2)

lemma sortRow_sorted_lt (l : List (ℕ × ℚ)) (hnd : (l.map Prod.fst).Nodup) :
    ((sortRow l).map Prod.fst).Sorted (fun a b : ℕ => a < b) :=
  sorted_lt_of_nodup _ (sortRow_sorted l)
    (((sortRow_perm l).map Prod.fst).nodup_iff.mpr hnd)

lemma sortRow_eq_of_perm (l₁ l₂ : List (ℕ × ℚ)) (h : List.Perm l₁ l₂)
    (hnd : (l₁.map Prod.fst).Nodup) :
    sortRow l₁ = sortRow l₂ := by
  haveI : IsAntisymm (ℕ × ℚ) (fun a b : ℕ × ℚ => a.1 < b.1) :=
    ⟨fun a b hab hba => absurd (hab.trans hba) (lt_irrefl _)⟩
  have hperm : List.Perm (sortRow l₁) (sortRow l₂) :=
    ((sortRow_perm l₁).trans h).trans (sortRow_perm l₂).symm
  have hnd₂ : (l₂.map Prod.fst).Nodup := ((h.map Prod.fst).nodup_iff).mp hnd
  have hs₁ : (sortRow l₁).Sorted (fun a b : ℕ × ℚ => a.1 < b.1) :=
    List.pairwise_map.mp (sortRow_sorted_lt l₁ hnd)
  have hs₂ : (sortRow l₂).Sorted (fun a b : ℕ × ℚ => a.1 < b.1) :=
    List.pairwise_map.mp (sortRow_sorted_lt l₂ hnd₂)
  exact List.eq_of_perm_of_sorted hperm hs₁ hs₂

/-! ### The emission phase of `_update_compressed` -/

lemma emit_go (buckets : List (List (ℕ × ℚ))) :
    ∀ (ra ca : List ℕ) (da : List ℚ),
      buckets.foldl
          (fun acc row =>
            (acc.1 ++ [(acc.2.2 ++ row.map Prod.snd).length],
             acc.2.1 ++ row.map Prod.fst,
             acc.2.2 ++ row.map Prod.snd))
          (ra, ca, da) =
        (ra ++ (List.range buckets.length).map
            (fun i => da.length + (((buckets.map List.length).take (i + 1)).sum)),
         ca ++ buckets.flatMap (fun b => b.map Prod.fst),
         da ++ buckets.flatMap (fun b => b.map Prod.snd)) := by
  induction buckets with
  | nil =>
    intro ra ca da
    simp
  | cons b bs ih =>
    intro ra ca da
    rw [List.foldl_cons, ih]
    simp only [Prod.mk.injEq]
    refine ⟨?_, ?_, ?_⟩
    · rw [List.length_cons, List.range_succ_eq_map, List.map_cons, List.map_map,
        List.append_assoc, List.singleton_append]
      congr 1
      congr 1
      · simp [List.take_succ_cons]
      · apply List.map_congr_left
        intro i _
        simp only [Function.comp_apply, Nat.succ_eq_add_one, List.map_cons,
          List.take_succ_cons, List.sum_cons, List.length_append, List.length_map]
        omega
    · rw [List.flatMap_cons, List.append_assoc]
    · rw [List.flatMap_cons, List.append_assoc]

lemma emitCompressed_eq (buckets : List (List (ℕ × ℚ))) :
    emitCompressed buckets =
      (csrOffsets buckets,
       buckets.flatMap (fun b => b.map Prod.fst),
       buckets.flatMap (fun b => b.map Prod.snd)) := by
  unfold emitCompressed csrOffsets
  rw [emit_go]
  simp only [List.length_nil, Nat.zero_add, List.nil_append]
  congr 1
  rw [List.range_succ_eq_map, List.map_cons, List.map_map, List.singleton_append]
  rfl

lemma update_compressed_eq (m : SparseMatrix) (hb : InBounds m) :
    m.update_compressed = some
      { m with compressed_rowarray := csrOffsets (sortedBuckets m),
               compressed_colarray := (sortedBuckets m).flatMap (fun b => b.map Prod.fst),
               compressed_dataarray := (sortedBuckets m).flatMap (fun b => b.map Prod.snd),
               compressed_updated := true } := by
  unfold SparseMatrix.update_compressed
  rw [bucketRows_eq _ _ (fun e he => (hb e he).1)]
  have hmap : ((List.range m.shape.1).map (fun r => rowEntriesL m.values r)).map sortRow =
      sortedBuckets m := by
    unfold sortedBuckets
    rw [List.map_map]
    rfl
  rw [Option.map_some', hmap, emitCompressed_eq]

/-! ### Facts about the CSR offset array -/

lemma sum_take_le (l : List ℕ) (i : ℕ) : (l.take i).sum ≤ l.sum := by
  conv_rhs => rw [← List.take_append_drop i l]
  rw [List.sum_append]
  exact Nat.le_add_right _ _

lemma sum_take_mono (l : List ℕ) (i j : ℕ) (h : i ≤ j) :
    (l.take i).sum ≤ (l.take j).sum := by
  have : l.take i = (l.take j).take i := by
    rw [List.take_take, Nat.min_eq_left h]
  rw [this]
  exact sum_take_le _ _

lemma csrOffsets_length (bs : List (List (ℕ × ℚ))) :
    (csrOffsets bs).length = bs.length + 1 := by
  simp [csrOffsets]

lemma csrOffsets_head (bs : List (List (ℕ × ℚ))) :
    (csrOffsets bs).head? = some 0 := by
  unfold csrOffsets
  rw [List.range_succ_eq_map, List.map_cons]
  rfl

lemma csrOffsets_sorted (bs : List (List (ℕ × ℚ))) :
    (csrOffsets bs).Sorted (fun a b : ℕ => a ≤ b) := by
  unfold csrOffsets
  refine List.Pairwise.map _ ?_ (List.pairwise_lt_range (bs.length + 1))
  intro i j hij
  exact sum_take_mono _ _ _ (Nat.le_of_lt hij)

lemma csrOffsets_getLast (bs : List (List (ℕ × ℚ))) :
    (csrOffsets bs).getLast? = some ((bs.map List.length).sum) := by
  unfold csrOffsets
  rw [List.range_succ, List.map_append, List.map_singleton, List.getLast?_concat]
  congr 1
  rw [List.take_of_length_le (by simp)]

lemma csrOffsets_getD (bs : List (List (ℕ × ℚ))) (i : ℕ) (h : i < bs.length + 1) :
    (csrOffsets bs).getD i 0 = ((bs.map List.length).take i).sum := by
  unfold csrOffsets
  rw [List.getD_eq_getElem?_getD, List.getElem?_eq_getElem (by simpa using h)]
  simp

lemma sum_map_add_nat {α : Type} (l : List α) (f g : α → ℕ) :
    (l.map (fun x => f x + g x)).sum = (l.map f).sum + (l.map g).sum := by
  induction l with
  | nil => simp
  | cons a t ih =>
    simp only [List.map_cons, List.sum_cons, ih]
    omega

lemma sum_map_ite_one (n k : ℕ) (hk : k < n) :
    ((List.range n).map (fun r => if k = r then 1 else 0)).sum = 1 := by
  induction n with
  | zero => omega
  | succ n ih =>
    rw [List.range_succ, List.map_append, List.sum_append]
    by_cases h : k = n
    · have hz : ((List.range n).map (fun r => if k = r then 1 else 0)).sum = 0 := by
        apply List.sum_eq_zero
        intro x hx
        rcases List.mem_map.mp hx with ⟨r, hr, hxr⟩
        have hkr : ¬ k = r := by
          have := List.mem_range.mp hr
          omega
        rw [← hxr, if_neg hkr]
      rw [h] at hz
      simp [hz, h]
    · have hi := ih (by omega)
      simp [hi, h]

lemma sum_rowEntriesL_length (entries : List Entry) (n : ℕ)
    (h : ∀ e ∈ entries, e.1.1 < n) :
    (((List.range n).map (fun r => (rowEntriesL entries r).length)).sum) =
      entries.length := by
  induction entries with
  | nil =>
    simp only [rowEntriesL_nil, List.length_nil]
    apply List.sum_eq_zero
    intro x hx
    rcases List.mem_map.mp hx with ⟨r, _, hxr⟩
    exact hxr.symm
  | cons e rest ih =>
    have hrw : (fun r => (rowEntriesL (e :: rest) r).length) =
        (fun r => (if e.1.1 = r then 1 else 0) + (rowEntriesL rest r).length) := by
      funext r
      rw [rowEntriesL_cons]
      by_cases hre : e.1.1 = r <;> simp [hre, Nat.add_comm]
    rw [hrw, sum_map_add_nat, sum_map_ite_one n e.1.1 (h e (List.mem_cons_self e rest)),
      ih (fun e' he' => h e' (List.mem_cons_of_mem e he'))]
    simp [Nat.add_comm]

/-! ### Extracting one row's chunk from the flattened arrays -/

lemma flatten_extract {α : Type} (bs : List (List α)) :
    ∀ r, r < bs.length →
      ((bs.flatten.take (((bs.map List.length).take (r + 1)).sum)).drop
        (((bs.map List.length).take r).sum)) = bs.getD r [] := by
  induction bs with
  | nil =>
    intro r hr
    simp at hr
  | cons b bs ih =>
    intro r hr
    cases r with
    | zero =>
      rw [List.flatten_cons, List.map_cons]
      simp only [List.take_succ_cons, List.take_zero, List.sum_cons, List.sum_nil,
        Nat.add_zero, List.drop_zero, List.getD_cons_zero]
      rw [List.take_append_eq_append_take, List.take_of_length_le (Nat.le_refl _),
        Nat.sub_self, List.take_zero, List.append_nil]
    | succ r' =>
      rw [List.flatten_cons, List.map_cons]
      simp only [List.take_succ_cons, List.sum_cons, List.getD_cons_succ]
      rw [List.take_append_eq_append_take, List.take_of_length_le (Nat.le_add_right _ _),
        Nat.add_sub_cancel_left, List.drop_append_eq_append_drop,
        List.drop_eq_nil_of_le (Nat.le_add_right _ _), Nat.add_sub_cancel_left,
        List.nil_append]
      exact ih r' (Nat.lt_of_succ_lt_succ hr)

lemma zip_flatMap_fst_snd (bs : List (List (ℕ × ℚ))) :
    (bs.flatMap (fun b => b.map Prod.fst)).zip (bs.flatMap (fun b => b.map Prod.snd)) =
      bs.flatten := by
  induction bs with
  | nil => rfl
  | cons b t ih =>
    rw [List.flatMap_cons, List.flatMap_cons, List.flatten_cons,
      List.zip_append (by simp), ih, List.zip_map']
    congr 1
    simp

lemma sortedBuckets_length (m : SparseMatrix) :
    (sortedBuckets m).length = m.shape.1 := by
  simp [sortedBuckets]

lemma sortedBuckets_getD (m : SparseMatrix) (r : ℕ) (hr : r < m.shape.1) :
    (sortedBuckets m).getD r [] = sortRow (rowEntriesL m.values r) := by
  unfold sortedBuckets
  rw [List.getD_eq_getElem?_getD, List.getElem?_eq_getElem (by simpa using hr)]
  simp

lemma sortedBuckets_map_length (m : SparseMatrix) :
    (sortedBuckets m).map List.length =
      (List.range m.shape.1).map (fun r => (rowEntriesL m.values r).length) := by
  unfold sortedBuckets
  rw [List.map_map]
  apply List.map_congr_left
  intro r _
  simp [Function.comp_apply, sortRow_length]

/-- Any matrix carrying the three arrays of a rebuild of `m₀` (at the same
shape) has, for each row `r`, exactly the sorted row bucket as its slice. -/
lemma rowSlice_of_csr (m₀ mv : SparseMatrix)
    (hra : mv.compressed_rowarray = csrOffsets (sortedBuckets m₀))
    (hca : mv.compressed_colarray = (sortedBuckets m₀).flatMap (fun b => b.map Prod.fst))
    (hda : mv.compressed_dataarray = (sortedBuckets m₀).flatMap (fun b => b.map Prod.snd))
    (r : ℕ) (hr : r < m₀.shape.1) :
    rowSlice mv r = sortRow (rowEntriesL m₀.values r) := by
  unfold rowSlice
  rw [hra, hca, hda, zip_flatMap_fst_snd,
    csrOffsets_getD _ _ (by rw [sortedBuckets_length]; omega),
    csrOffsets_getD _ _ (by rw [sortedBuckets_length]; omega),
    flatten_extract _ r (by rw [sortedBuckets_length]; exact hr),
    sortedBuckets_getD _ _ hr]

/-- C1: after a rebuild on a well-formed in-bounds matrix, the row-offset
array has `shape.0 + 1` elements, starts at `0`, is monotone, ends at the
entry count; each row's slice of the column/value arrays is a permutation
of (hence equal as a multiset/set to) that row's stored `(c,v)` pairs, with
strictly ascending columns; and the freshness flag is set. -/
theorem rebuild_compressed_correct (m : SparseMatrix) (hnd : WF m)
    (hb : InBounds m) :
    ∃ m', m.update_compressed = some m' ∧
      m'.compressed_updated = true ∧
      m'.compressed_rowarray.length = m.shape.1 + 1 ∧
      m'.compressed_rowarray.head? = some 0 ∧
      m'.compressed_rowarray.Sorted (fun a b : ℕ => a ≤ b) ∧
      m'.compressed_rowarray.getLast? = some m.num_nonzero ∧
      ∀ r, r < m.shape.1 →
        List.Perm (rowSlice m' r) (rowEntriesL m.values r) ∧
        ((rowSlice m' r).map Prod.fst).Sorted (fun a b : ℕ => a < b) := by
  have hupd := update_compressed_eq m hb
  set m' : SparseMatrix :=
    { m with compressed_rowarray := csrOffsets (sortedBuckets m),
             compressed_colarray := (sortedBuckets m).flatMap (fun b => b.map Prod.fst),
             compressed_dataarray := (sortedBuckets m).flatMap (fun b => b.map Prod.snd),
             compressed_updated := true } with hm'
  have hra : m'.compressed_rowarray = csrOffsets (sortedBuckets m) := by rw [hm']
  have hca : m'.compressed_colarray =
      (sortedBuckets m).flatMap (fun b => b.map Prod.fst) := by rw [hm']
  have hda : m'.compressed_dataarray =
      (sortedBuckets m).flatMap (fun b => b.map Prod.snd) := by rw [hm']
  refine ⟨m', hupd, by rw [hm'], ?_, ?_, ?_, ?_, ?_⟩
  · rw [hra, csrOffsets_length, sortedBuckets_length]
  · rw [hra]
    exact csrOffsets_head _
  · rw [hra]
    exact csrOffsets_sorted _
  · rw [hra, csrOffsets_getLast, sortedBuckets_map_length,
      sum_rowEntriesL_length _ _ (fun e he => (hb e he).1)]
    rfl
  · intro r hr
    rw [rowSlice_of_csr m m' hra hca hda r hr]
    exact ⟨sortRow_perm _, sortRow_sorted_lt _ (nodup_cols m.values r hnd)⟩

/-- C1 witness at a concrete matrix. -/
theorem rebuild_compressed_correct_witness :
    ∃ m', ({ shape := (2, 2), values := [((1, 0), 3), ((0, 1), 5)],
             compressed_updated := false, compressed_rowarray := [],
             compressed_colarray := [], compressed_dataarray := [] } :
               SparseMatrix).update_compressed = some m' ∧
      m'.compressed_updated = true ∧
      m'.compressed_rowarray.length = 2 + 1 ∧
      m'.compressed_rowarray.head? = some 0 ∧
      m'.compressed_rowarray.Sorted (fun a b : ℕ => a ≤ b) ∧
      m'.compressed_rowarray.getLast? = some
        ({ shape := (2, 2), values := [((1, 0), 3), ((0, 1), 5)],
           compressed_updated := false, compressed_rowarray := [],
           compressed_colarray := [], compressed_dataarray := [] } :
             SparseMatrix).num_nonzero ∧
      ∀ r, r < 2 →
        List.Perm (rowSlice m' r)
          (rowEntriesL [((1, 0), 3), ((0, 1), 5)] r) ∧
        ((rowSlice m' r).map Prod.fst).Sorted (fun a b : ℕ => a < b) :=
  rebuild_compressed_correct
    { shape := (2, 2), values := [((1, 0), 3), ((0, 1), 5)],
      compressed_updated := false, compressed_rowarray := [],
      compressed_colarray := [], compressed_dataarray := [] }
    (by decide) (by decide)

/-! ### The scatter loop and row iteration -/

lemma mem_rowEntriesL (entries : List Entry) (r c : ℕ) (v : ℚ) :
    (c, v) ∈ rowEntriesL entries r ↔ ((r, c), v) ∈ entries := by
  unfold rowEntriesL
  constructor
  · intro h
    rcases List.mem_map.mp h with ⟨e, he, heq⟩
    have hr : e.1.1 = r := by simpa using List.of_mem_filter he
    obtain ⟨⟨er, ec⟩, ev⟩ := e
    simp only [Prod.mk.injEq] at heq
    simp only at hr
    have : ((r, c), v) = ((er, ec), ev) := by
      simp [hr, heq.1, heq.2]
    rw [this]
    exact List.mem_of_mem_filter he
  · intro h
    exact List.mem_map.mpr ⟨((r, c), v), List.mem_filter.mpr ⟨h, by simp⟩, rfl⟩

lemma scatter_go (width : ℕ) (pairs : List (ℕ × ℚ)) :
    ∀ acc : List ℚ, acc.length = width →
      (∀ p ∈ pairs, p.1 < width) →
      ((pairs.map Prod.fst).Nodup) →
      ∃ res, pairs.foldlM
          (fun acc p => if p.1 < width then some (acc.set p.1 p.2) else none)
          acc = some res ∧
        res.length = width ∧
        (∀ p ∈ pairs, res.getD p.1 0 = p.2) ∧
        (∀ c, (∀ v, (c, v) ∉ pairs) → res.getD c 0 = acc.getD c 0) := by
  induction pairs with
  | nil =>
    intro acc hlen _ _
    exact ⟨acc, rfl, hlen, by simp, fun c _ => rfl⟩
  | cons p rest ih =>
    intro acc hlen hb hnd
    have hp := hb p (List.mem_cons_self p rest)
    rw [List.map_cons, List.nodup_cons] at hnd
    obtain ⟨res, hfold, hrlen, hset, huntouched⟩ :=
      ih (acc.set p.1 p.2) (by simpa using hlen)
        (fun q hq => hb q (List.mem_cons_of_mem p hq)) hnd.2
    refine ⟨res, ?_, hrlen, ?_, ?_⟩
    · simp only [List.foldlM_cons]
      rw [if_pos hp]
      simp only [Option.bind_eq_bind, Option.some_bind]
      exact hfold
    · intro q hq
      rcases List.mem_cons.mp hq with hq | hq
      · have hnot : ∀ v, (p.1, v) ∉ rest := by
          intro v hv
          exact hnd.1 (List.mem_map.mpr ⟨(p.1, v), hv, rfl⟩)
        subst hq
        rw [huntouched q.1 (fun v hv => hnot v hv),
          getD_set_self _ _ _ _ (by omega)]
      · exact hset q hq
    · intro c hc
      have hcp : p.1 ≠ c := by
        intro hpc
        exact hc p.2 (by rw [← hpc]; exact List.mem_cons_self p rest)
      rw [huntouched c (fun v hv => hc v (List.mem_cons_of_mem p hv)),
        getD_set_ne _ _ _ _ _ hcp]

lemma scatter_eq_denseRow (m₀ : SparseMatrix) (r : ℕ) (pairs : List (ℕ × ℚ))
    (hperm : List.Perm pairs (rowEntriesL m₀.values r))
    (hnd : WF m₀) (hb : InBounds m₀) :
    scatter m₀.shape.2 pairs =
      some ((List.range m₀.shape.2).map (fun c => denseAt m₀ r c)) := by
  have hbp : ∀ p ∈ pairs, p.1 < m₀.shape.2 := by
    intro p hp
    have hmem : (p.1, p.2) ∈ rowEntriesL m₀.values r := by
      rw [Prod.mk.eta]
      exact hperm.mem_iff.mp hp
    have := (mem_rowEntriesL m₀.values r p.1 p.2).mp hmem
    exact (hb _ this).2
  have hndp : (pairs.map Prod.fst).Nodup :=
    ((hperm.map Prod.fst).nodup_iff).mpr (nodup_cols m₀.values r hnd)
  obtain ⟨res, hfold, hrlen, hset, huntouched⟩ :=
    scatter_go m₀.shape.2 pairs (List.replicate m₀.shape.2 0) (by simp) hbp hndp
  have hres : res = (List.range m₀.shape.2).map (fun c => denseAt m₀ r c) := by
    apply List.ext_getElem
    · simp [hrlen]
    · intro c h1 h2
      have hc : c < m₀.shape.2 := by simpa [hrlen] using h1
      have hgetD : res.getD c 0 = res[c] := by
        rw [List.getD_eq_getElem?_getD, List.getElem?_eq_getElem h1]
        rfl
      rw [← hgetD]
      simp only [List.getElem_map, List.getElem_range]
      unfold denseAt
      cases hget : hmGet m₀.values (r, c) with
      | some v =>
        have hmem : (c, v) ∈ pairs := by
          rw [hperm.mem_iff]
          exact (mem_rowEntriesL m₀.values r c v).mpr
            (mem_of_hmGet_eq_some _ _ _ hget)
        have := hset (c, v) hmem
        simpa using this
      | none =>
        have hnot : ∀ v, (c, v) ∉ pairs := by
          intro v hv
          have : ((r, c), v) ∈ m₀.values :=
            (mem_rowEntriesL m₀.values r c v).mp (hperm.mem_iff.mp hv)
          exact ((hmGet_eq_none_iff m₀.values (r, c)).mp hget) v this
        rw [huntouched c hnot]
        simp [List.getD_eq_getElem?_getD, List.getElem?_eq_getElem, hc]
  rw [← hres]
  unfold scatter
  rw [hfold]

lemma chunk_map {β : Type} (f : ℕ × ℚ → β) (bs : List (List (ℕ × ℚ))) (idx : ℕ)
    (h : idx < bs.length) :
    (((bs.flatMap (fun b => b.map f)).take
        (((bs.map List.length).take (idx + 1)).sum)).drop
      (((bs.map List.length).take idx).sum)) = (bs.getD idx []).map f := by
  have hml : (bs.map (List.map f)).map List.length = bs.map List.length := by
    rw [List.map_map]
    apply List.map_congr_left
    intro b _
    simp
  rw [List.flatMap_def, ← hml,
    flatten_extract (bs.map (List.map f)) idx (by simpa using h)]
  rw [List.getD_eq_getElem?_getD, List.getElem?_eq_getElem (by simpa using h),
    List.getElem_map, List.getD_eq_getElem?_getD, List.getElem?_eq_getElem h]
  rfl

lemma flatMap_map_length {β : Type} (f : ℕ × ℚ → β) (bs : List (List (ℕ × ℚ))) :
    (bs.flatMap (fun b => b.map f)).length = ((bs.map List.length)).sum := by
  rw [List.flatMap_def, List.length_flatten, List.map_map]
  congr 1
  apply List.map_congr_left
  intro b _
  simp

lemma csrOffsets_getElem? (bs : List (List (ℕ × ℚ))) (i : ℕ) (h : i < bs.length + 1) :
    (csrOffsets bs)[i]? = some (((bs.map List.length).take i).sum) := by
  unfold csrOffsets
  rw [List.getElem?_eq_getElem (by simpa using h)]
  simp

lemma rowIterNext_of_csr (m₀ mv : SparseMatrix) (hnd : WF m₀) (hb : InBounds m₀)
    (hshape : mv.shape = m₀.shape)
    (hra : mv.compressed_rowarray = csrOffsets (sortedBuckets m₀))
    (hca : mv.compressed_colarray = (sortedBuckets m₀).flatMap (fun b => b.map Prod.fst))
    (hda : mv.compressed_dataarray = (sortedBuckets m₀).flatMap (fun b => b.map Prod.snd))
    (idx : ℕ) (hidx : idx < m₀.shape.1) :
    rowIterNext mv idx =
      some (some ((List.range m₀.shape.2).map (fun c => denseAt m₀ idx c))) := by
  have hlen : (sortedBuckets m₀).length = m₀.shape.1 := sortedBuckets_length m₀
  have hmono : (((sortedBuckets m₀).map List.length).take idx).sum ≤
      (((sortedBuckets m₀).map List.length).take (idx + 1)).sum :=
    sum_take_mono _ _ _ (by omega)
  have hee : (((sortedBuckets m₀).map List.length).take (idx + 1)).sum ≤
      (((sortedBuckets m₀).map List.length)).sum := sum_take_le _ _
  have hcol_len : mv.compressed_colarray.length = (((sortedBuckets m₀).map List.length)).sum := by
    rw [hca]
    exact flatMap_map_length _ _
  have hdat_len : mv.compressed_dataarray.length = (((sortedBuckets m₀).map List.length)).sum := by
    rw [hda]
    exact flatMap_map_length _ _
  unfold rowIterNext
  rw [hshape, if_pos hidx, hra,
    csrOffsets_getElem? _ idx (by omega), csrOffsets_getElem? _ (idx + 1) (by omega)]
  simp only [Option.bind_eq_bind, Option.some_bind]
  unfold listSlice
  rw [if_pos ⟨hmono, by omega⟩, if_pos ⟨hmono, by omega⟩]
  simp only [Option.bind_eq_bind, Option.some_bind]
  rw [hca, hda, chunk_map Prod.fst _ idx (by omega), chunk_map Prod.snd _ idx (by omega),
    List.zip_map']
  have hbucket : ((sortedBuckets m₀).getD idx []).map (fun a => (a.1, a.2)) =
      sortRow (rowEntriesL m₀.values idx) := by
    rw [sortedBuckets_getD _ _ hidx]
    simp
  rw [hbucket,
    scatter_eq_denseRow m₀ idx _ (sortRow_perm _) hnd hb]
  rfl

lemma rowIterFrom_of_csr (m₀ mv : SparseMatrix) (hnd : WF m₀) (hb : InBounds m₀)
    (hshape : mv.shape = m₀.shape)
    (hra : mv.compressed_rowarray = csrOffsets (sortedBuckets m₀))
    (hca : mv.compressed_colarray = (sortedBuckets m₀).flatMap (fun b => b.map Prod.fst))
    (hda : mv.compressed_dataarray = (sortedBuckets m₀).flatMap (fun b => b.map Prod.snd)) :
    ∀ k idx, m₀.shape.1 = idx + k →
      rowIterFrom mv idx =
        some ((List.range' idx k).map
          (fun r => (List.range m₀.shape.2).map (fun c => denseAt m₀ r c))) := by
  intro k
  induction k with
  | zero =>
    intro idx hk
    rw [rowIterFrom, if_neg (by rw [hshape]; omega)]
    rfl
  | succ k ih =>
    intro idx hk
    rw [rowIterFrom, if_pos (by rw [hshape]; omega),
      rowIterNext_of_csr m₀ mv hnd hb hshape hra hca hda idx (by omega),
      ih (idx + 1) (by omega)]
    rw [List.range'_succ, List.map_cons]
    rfl

/-- C2: on a freshly rebuilt matrix, collecting the row iterator yields
exactly one dense row per row index, in order: the `r`-th item is the
length-`shape.1` vector whose entry at `c` is the stored value at `(r, c)`,
or `0` when absent. -/
theorem row_iter_fresh (m m' : SparseMatrix) (hnd : WF m) (hb : InBounds m)
    (h : m.update_compressed = some m') :
    rowIterFrom m' 0 = some ((List.range m.shape.1).map
      (fun r => (List.range m.shape.2).map (fun c => denseAt m r c))) := by
  have hupd := update_compressed_eq m hb
  rw [h] at hupd
  have hm' := Option.some.inj hupd
  have hres := rowIterFrom_of_csr m m' hnd hb
    (by rw [hm']) (by rw [hm']) (by rw [hm']) (by rw [hm'])
    m.shape.1 0 (by omega)
  rw [hres, List.range_eq_range' m.shape.1]

/-- C2 witness at a concrete matrix and its concrete rebuild. -/
theorem row_iter_fresh_witness :
    rowIterFrom
        { shape := (2, 2), values := [((1, 0), 3), ((0, 1), 5)],
          compressed_updated := true, compressed_rowarray := [0, 1, 2],
          compressed_colarray := [1, 0], compressed_dataarray := [5, 3] } 0 =
      some ((List.range 2).map
        (fun r => (List.range 2).map (fun c => denseAt
          { shape := (2, 2), values := [((1, 0), 3), ((0, 1), 5)],
            compressed_updated := false, compressed_rowarray := [],
            compressed_colarray := [], compressed_dataarray := [] } r c))) :=
  row_iter_fresh
    { shape := (2, 2), values := [((1, 0), 3), ((0, 1), 5)],
      compressed_updated := false, compressed_rowarray := [],
      compressed_colarray := [], compressed_dataarray := [] }
    { shape := (2, 2), values := [((1, 0), 3), ((0, 1), 5)],
      compressed_updated := true, compressed_rowarray := [0, 1, 2],
      compressed_colarray := [1, 0], compressed_dataarray := [5, 3] }
    (by decide) (by decide) (by rfl)

/-- C3 counterexample: a freshly created matrix with `shape.0 = 1 > 0` whose
cache was never rebuilt panics on the first `next` (the row-offset array is
empty, so `compressed_rowarray[0]` is out of bounds) — refuting the claim
that consuming the iterator on a stale cache never fails. -/
theorem stale_iter_never_rebuilt_cex :
    rowIterFrom (SparseMatrix.empty_with_shape 1 1) 0 = none := by
  rw [rowIterFrom]
  rfl

/-- C3 (amended): consuming the iterator through a stale cache never fails
and yields the previously cached contents, provided the cached arrays stem
from some earlier rebuild at the current shape (mutations of `values` and
of the freshness flag after that rebuild are arbitrary); a matrix whose
cache was never rebuilt is excluded (see the counterexample). -/
theorem stale_iteration_reads_cache (m m₁ m₂ : SparseMatrix)
    (hnd : WF m) (hb : InBounds m)
    (h : m.update_compressed = some m₁)
    (hsh : m₂.shape = m₁.shape)
    (hra : m₂.compressed_rowarray = m₁.compressed_rowarray)
    (hca : m₂.compressed_colarray = m₁.compressed_colarray)
    (hda : m₂.compressed_dataarray = m₁.compressed_dataarray) :
    rowIterFrom m₂ 0 = some ((List.range m.shape.1).map
      (fun r => (List.range m.shape.2).map (fun c => denseAt m r c))) := by
  have hupd := update_compressed_eq m hb
  rw [h] at hupd
  have hm₁ := Option.some.inj hupd
  have hres := rowIterFrom_of_csr m m₂ hnd hb
    (by rw [hsh, hm₁]) (by rw [hra, hm₁]) (by rw [hca, hm₁]) (by rw [hda, hm₁])
    m.shape.1 0 (by omega)
  rw [hres, List.range_eq_range' m.shape.1]

/-- C3 witness: the cache of a rebuilt matrix is consumed after the entry
store has been mutated (emptied) and the flag cleared — the stale read
still succeeds and returns the previously cached dense rows. -/
theorem stale_iteration_reads_cache_witness :
    rowIterFrom
        { shape := (2, 2), values := [], compressed_updated := false,
          compressed_rowarray := [0, 1, 2], compressed_colarray := [1, 0],
          compressed_dataarray := [5, 3] } 0 =
      some ((List.range 2).map
        (fun r => (List.range 2).map (fun c => denseAt
          { shape := (2, 2), values := [((1, 0), 3), ((0, 1), 5)],
            compressed_updated := false, compressed_rowarray := [],
            compressed_colarray := [], compressed_dataarray := [] } r c))) :=
  stale_iteration_reads_cache
    { shape := (2, 2), values := [((1, 0), 3), ((0, 1), 5)],
      compressed_updated := false, compressed_rowarray := [],
      compressed_colarray := [], compressed_dataarray := [] }
    { shape := (2, 2), values := [((1, 0), 3), ((0, 1), 5)],
      compressed_updated := true, compressed_rowarray := [0, 1, 2],
      compressed_colarray := [1, 0], compressed_dataarray := [5, 3] }
    { shape := (2, 2), values := [], compressed_updated := false,
      compressed_rowarray := [0, 1, 2], compressed_colarray := [1, 0],
      compressed_dataarray := [5, 3] }
    (by decide) (by decide) (by rfl) (by rfl) (by rfl) (by rfl) (by rfl)

/-- C10: the rebuilt arrays are a function of the shape and the key-value
mapping only — two well-formed matrices of equal shape whose entry lists
are permutations of each other (i.e. equal as hash maps, whatever the
iteration order) rebuild to identical row-offset, column, and value
arrays. -/
theorem rebuild_deterministic (m₁ m₂ : SparseMatrix) (hnd : WF m₁)
    (hb : InBounds m₁) (hshape : m₁.shape = m₂.shape)
    (hperm : List.Perm m₁.values m₂.values) :
    ∃ m₁' m₂', m₁.update_compressed = some m₁' ∧
      m₂.update_compressed = some m₂' ∧
      m₁'.compressed_rowarray = m₂'.compressed_rowarray ∧
      m₁'.compressed_colarray = m₂'.compressed_colarray ∧
      m₁'.compressed_dataarray = m₂'.compressed_dataarray := by
  have hb₂ : InBounds m₂ := by
    intro e he
    have := hb e (hperm.mem_iff.mpr he)
    rw [← hshape]
    exact this
  have hbuck : sortedBuckets m₁ = sortedBuckets m₂ := by
    unfold sortedBuckets
    rw [← hshape]
    apply List.map_congr_left
    intro r _
    apply sortRow_eq_of_perm
    · unfold rowEntriesL
      exact (hperm.filter _).map _
    · exact nodup_cols m₁.values r hnd
  exact ⟨_, _, update_compressed_eq m₁ hb, update_compressed_eq m₂ hb₂,
    by rw [hbuck], by rw [hbuck], by rw [hbuck]⟩

/-- C10 witness: two concrete matrices whose entry lists are reversals of
each other. -/
theorem rebuild_deterministic_witness :
    ∃ m₁' m₂',
      ({ shape := (2, 2), values := [((0, 0), 1), ((1, 1), 2)],
         compressed_updated := false, compressed_rowarray := [],
         compressed_colarray := [], compressed_dataarray := [] } :
           SparseMatrix).update_compressed = some m₁' ∧
      ({ shape := (2, 2), values := [((1, 1), 2), ((0, 0), 1)],
         compressed_updated := false, compressed_rowarray := [],
         compressed_colarray := [], compressed_dataarray := [] } :
           SparseMatrix).update_compressed = some m₂' ∧
      m₁'.compressed_rowarray = m₂'.compressed_rowarray ∧
      m₁'.compressed_colarray = m₂'.compressed_colarray ∧
      m₁'.compressed_dataarray = m₂'.compressed_dataarray :=
  rebuild_deterministic
    { shape := (2, 2), values := [((0, 0), 1), ((1, 1), 2)],
      compressed_updated := false, compressed_rowarray := [],
      compressed_colarray := [], compressed_dataarray := [] }
    { shape := (2, 2), values := [((1, 1), 2), ((0, 0), 1)],
      compressed_updated := false, compressed_rowarray := [],
      compressed_colarray := [], compressed_dataarray := [] }
    (by decide) (by decide) (by rfl) (by decide)
